import Mathlib

/-!
Verification of the path-addressable nested value tree of `LogEvent`
(`src/lib/shared/src/event/log_event/mod.rs`).

The root container (`LogEvent`) operations are translated from the Rust
source.  The recursive `Value`-node half of the algorithm lives in a file
that is not part of this repository snapshot; those functions are modelled
from the specification (§4.3–§4.6) and are marked as such in their doc
comments.
-/

namespace LogEventModel

/-- The parsed path segment model: `Field{name, requires_quoting}`,
`Index(n)`, or `Coalesce(list of alternative segment sequences)`.
Mirrors `SegmentBuf` / `Segment` from the lookup crate as used by
`log_event/mod.rs` (alternatives of a coalesce are themselves segment
sequences, cf. `cursor_set.get(0).and_then(|v| v.get(0))`). -/
inductive Segment where
  | field (name : String) (requiresQuoting : Bool)
  | index (i : Nat)
  | coalesce (alts : List (List Segment))
deriving Inhabited

/-- A lookup path: a sequence of segments. -/
abbrev Path := List Segment

/-- The recursive tagged-union value node (`Value` in the event crate):
scalars, `Map` (ordered string map, a `BTreeMap` in the source, modelled
as a key-sorted association list) and `Array`.  Float and timestamp
payloads are opaque to every operation verified here. -/
inductive Value where
  | null
  | boolean (b : Bool)
  | integer (i : Int)
  | float (bits : Nat)
  | bytes (s : String)
  | timestamp (t : Nat)
  | map (m : List (String × Value))
  | array (a : List Value)
deriving Inhabited

/-- The root container: `LogEvent.fields`, a `BTreeMap<String, Value>`
modelled as a key-sorted association list. -/
abbrev Fields := List (String × Value)

/-! ### Association-list operations mirroring `BTreeMap` -/

/-- `BTreeMap::get`. -/
def mapGet : List (String × Value) → String → Option Value
  | [], _ => none
  | (k, v) :: rest, n => if n = k then some v else mapGet rest n

/-- `BTreeMap::insert`: returns the previous value and the updated map,
keeping keys sorted. -/
def mapInsert : List (String × Value) → String → Value → Option Value × List (String × Value)
  | [], n, v => (none, [(n, v)])
  | (k, w) :: rest, n, v =>
    if n = k then (some w, (n, v) :: rest)
    else if n < k then (none, (n, v) :: (k, w) :: rest)
    else ((mapInsert rest n v).1, (k, w) :: (mapInsert rest n v).2)

/-- Set a key (the value part of `BTreeMap::insert`, or
`entry(..).or_insert_with(..)` followed by in-place mutation). -/
def mapSet (m : List (String × Value)) (n : String) (v : Value) : List (String × Value) :=
  (mapInsert m n v).2

/-- `BTreeMap::remove`: returns the removed value and the updated map. -/
def mapRemove : List (String × Value) → String → Option Value × List (String × Value)
  | [], _ => (none, [])
  | (k, v) :: rest, n =>
    if n = k then (some v, rest)
    else ((mapRemove rest n).1, (k, v) :: (mapRemove rest n).2)

/-! ### Path well-formedness

The parser contract (§4.1, §3) guarantees that every coalesce group has
non-empty alternatives.  `altsOk` checks the alternatives of one group. -/

/-- Every alternative of a coalesce group is a non-empty segment sequence. -/
def altsOk (alts : List (List Segment)) : Bool :=
  alts.all (fun a => !a.isEmpty)

/-- Size of a concatenated path, used by the termination measures of the
coalesce-resolution loops (a candidate path is `alternative ++ remainder`). -/
lemma sizeOf_append (l₁ l₂ : List Segment) : sizeOf (l₁ ++ l₂) + 1 = sizeOf l₁ + sizeOf l₂ := by
  induction l₁ with
  | nil => simp; omega
  | cons a t ih => simp at ih ⊢; omega

/-! ### Value-node `get`

Modelled from the spec: §4.3 "Mirrors 4.2 exactly, one structural level
lower" — `Field` segments dispatch into `Map` nodes, `Index` segments into
`Array` nodes, any further segment against a scalar is "not found", and
coalesce resolution follows §4.4 (first alternative whose candidate path
currently holds a value). -/
mutual

/-- Modelled from the spec: `Value::get` (§4.3), absent from this
repository snapshot.  An exhausted path returns the node itself. -/
def valueGet (v : Value) (p : Path) : Option Value :=
  match v, p with
  | v, [] => some v
  | v, .coalesce alts :: rest => valueGetCo v alts rest
  | .map m, .field n _ :: rest =>
    match mapGet m n with
    | some c => valueGet c rest
    | none => none
  | .array a, .index i :: rest =>
    match a[i]? with
    | some c => valueGet c rest
    | none => none
  | _, _ => none
termination_by sizeOf p
decreasing_by
  all_goals simp_wf
  all_goals omega

/-- Modelled from the spec: the coalesce resolution loop of `Value::get`
(§4.4) — scan alternatives in order, select the first candidate path that
holds a value; an empty alternative aborts with "not found" (mirroring the
`Lookup::try_from(..).ok()?` early return of the root layer). -/
def valueGetCo (v : Value) (alts : List (List Segment)) (rest : Path) : Option Value :=
  match alts with
  | [] => none
  | alt :: more =>
    if alt.isEmpty then none
    else if (valueGet v (alt ++ rest)).isSome then valueGet v (alt ++ rest)
    else valueGetCo v more rest
termination_by sizeOf alts + sizeOf rest
decreasing_by
  all_goals simp_wf
  all_goals have h1 := sizeOf_append alt rest
  all_goals omega

end

/-! ### Coalesce needle selection

The loop shared by `get_mut` / `insert` / `remove` (root and value layer):
build each candidate path (`alternative ++ remainder`), stop with "no
needle" on an empty alternative (the `Lookup::try_from(..).ok()?` early
return), otherwise select the first candidate satisfying the test
(`contains` for get/remove, `!contains` for insert). -/
def findNeedle (test : Path → Bool) : List (List Segment) → Path → Option Path
  | [], _ => none
  | alt :: more, rest =>
    if alt.isEmpty then none
    else if test (alt ++ rest) then some (alt ++ rest)
    else findNeedle test more rest

lemma findNeedle_some {test : Path → Bool} {alts : List (List Segment)} {rest c : Path}
    (h : findNeedle test alts rest = some c) :
    ∃ alt, alt ∈ alts ∧ alt.isEmpty = false ∧ c = alt ++ rest ∧ test c = true := by
  induction alts with
  | nil => simp [findNeedle] at h
  | cons alt more ih =>
    rw [findNeedle] at h
    by_cases he : alt.isEmpty
    · simp [he] at h
    · simp [he] at h
      by_cases ht : test (alt ++ rest)
      · simp [ht] at h
        exact ⟨alt, List.mem_cons_self _ _, by simpa using he, h.symm, by rw [h] at ht; exact ht⟩
      · simp [ht] at h
        obtain ⟨a, ha, h1, h2, h3⟩ := ih h
        exact ⟨a, List.mem_cons_of_mem _ ha, h1, h2, h3⟩

lemma findNeedle_sizeOf {test : Path → Bool} {alts : List (List Segment)} {rest c : Path}
    (h : findNeedle test alts rest = some c) : sizeOf c < sizeOf alts + sizeOf rest := by
  obtain ⟨alt, hmem, _, hc, _⟩ := findNeedle_some h
  subst hc
  have h1 := sizeOf_append alt rest
  have h2 : sizeOf alt < sizeOf alts := List.sizeOf_lt_of_mem hmem
  omega

/-! ### Auto-vivification decision (`LogEvent::insert`, lines 304–326) -/

/-- The vivification loop for a `Coalesce` next segment: inspect the first
alternative's first segment, recursing through nested coalesces; `none`
when the chain does not resolve (the `return None` of the source). -/
def coalesceVivify : List (List Segment) → Option Value
  | [] => none
  | [] :: _ => none
  | (Segment.field _ _ :: _) :: _ => some (.map [])
  | (Segment.index _ :: _) :: _ => some (.array [])
  | (Segment.coalesce set2 :: _) :: _ => coalesceVivify set2

/-- The `next_value` computation of `LogEvent::insert`: the container to
create for a currently-absent field, decided by the next path segment
(`Index` ⇒ empty `Array` — `Vec::with_capacity` allocates no elements —
`Field` ⇒ empty `Map`, `Coalesce` ⇒ `coalesceVivify`). -/
def decideNext : Segment → Option Value
  | .index _ => some (.array [])
  | .field _ _ => some (.map [])
  | .coalesce set => coalesceVivify set

/-! ### Value-node mutable get, insert, remove (modelled from the spec) -/

/-- Modelled from the spec: `Value::get_mut` (§4.2 "identical dispatch,
mutable access", §4.3), absent from this repository snapshot. -/
def valueGetMut (v : Value) (p : Path) : Option Value :=
  match v, p with
  | v, [] => some v
  | v, .coalesce alts :: rest =>
    match _h : findNeedle (fun c => (valueGet v c).isSome) alts rest with
    | some c => valueGetMut v c
    | none => none
  | .map m, .field n _ :: rest =>
    match mapGet m n with
    | some c => valueGetMut c rest
    | none => none
  | .array a, .index i :: rest =>
    match a[i]? with
    | some c => valueGetMut c rest
    | none => none
  | _, _ => none
termination_by sizeOf p
decreasing_by
  all_goals simp_wf
  · have := findNeedle_sizeOf _h
    omega

/-- Modelled from the spec: `Value::insert` (§4.3 — mirrors the root
layer one structural level lower; array inserts beyond the current length
extend the array, filling intermediate slots with `Null` (§3); descending
into a scalar or through a type mismatch is a no-op failure (§4.3, §7);
coalesce resolution per §4.4: first candidate whose `contains` is false). -/
def valueInsert (v : Value) (p : Path) (newv : Value) : Option Value × Value :=
  match v, p with
  | v, [] => (none, v)
  | v, .coalesce alts :: rest =>
    match _h : findNeedle (fun c => !(valueGet v c).isSome) alts rest with
    | some c => valueInsert v c newv
    | none => (none, v)
  | .map m, .field n _ :: rest =>
    match rest with
    | [] => ((mapInsert m n newv).1, .map (mapInsert m n newv).2)
    | next :: rest2 =>
      match decideNext next with
      | none => (none, .map m)
      | some nv =>
        ((valueInsert ((mapGet m n).getD nv) (next :: rest2) newv).1,
         .map (mapSet m n (valueInsert ((mapGet m n).getD nv) (next :: rest2) newv).2))
  | .array a, .index i :: rest =>
    match rest with
    | [] =>
      match a[i]? with
      | some old => (some old, .array (a.set i newv))
      | none => (none, .array (a ++ List.replicate (i - a.length) .null ++ [newv]))
    | next :: rest2 =>
      match decideNext next with
      | none => (none, .array a)
      | some nv =>
        match a[i]? with
        | some cur =>
          ((valueInsert cur (next :: rest2) newv).1,
           .array (a.set i (valueInsert cur (next :: rest2) newv).2))
        | none =>
          ((valueInsert nv (next :: rest2) newv).1,
           .array (a ++ List.replicate (i - a.length) .null
             ++ [(valueInsert nv (next :: rest2) newv).2]))
  | v, _ => (none, v)
termination_by sizeOf p
decreasing_by
  all_goals simp_wf
  · have := findNeedle_sizeOf _h
    omega

/-- The `Null` test of the pruning checks (`== Some(&Value::Null)`). -/
def isNullV : Value → Bool
  | .null => true
  | _ => false

/-- `fields.get(name) == Some(&Value::Null)`. -/
def isNullOpt : Option Value → Bool
  | some v => isNullV v
  | none => false

/-- A container that is now empty (§4.5: "now-empty ancestor containers"). -/
def isEmptyContainer : Value → Bool
  | .map [] => true
  | .array [] => true
  | _ => false

/-- Modelled from the spec: the pruning sentinel write (§3: "the pruning
cascade uses the scalar `Null` as an internal 'this slot is now empty'
sentinel"). After a removal (§4.5 "after removing a leaf value"), a node
left an empty container becomes `Null` so the parent level's
`== Some(&Value::Null)` check deletes its key. -/
def pruneSentinel (prune : Bool) (removed : Option Value) (v : Value) : Value :=
  if prune && removed.isSome && isEmptyContainer v then .null else v

/-- Modelled from the spec: `Value::remove` (§4.3, §4.5), absent from this
repository snapshot.  Each level removes at the terminus or delegates, and
with `prune` deletes its subordinate key/index when the subordinate value
is now the empty sentinel, then marks itself with the sentinel when it
became an empty container. -/
def valueRemove (v : Value) (p : Path) (prune : Bool) : Option Value × Value :=
  match v, p with
  | v, [] => (none, v)
  | v, .coalesce alts :: rest =>
    match _h : findNeedle (fun c => (valueGet v c).isSome) alts rest with
    | some c => valueRemove v c prune
    | none => (none, v)
  | .map m, .field n _ :: rest =>
    match rest with
    | [] =>
      ((mapRemove m n).1,
       pruneSentinel prune (mapRemove m n).1
         (.map (if prune && isNullOpt (mapGet (mapRemove m n).2 n)
                then (mapRemove (mapRemove m n).2 n).2 else (mapRemove m n).2)))
    | next :: rest2 =>
      match mapGet m n with
      | none => (none, .map m)
      | some cur =>
        ((valueRemove cur (next :: rest2) prune).1,
         pruneSentinel prune (valueRemove cur (next :: rest2) prune).1
           (.map (if prune && (valueRemove cur (next :: rest2) prune).1.isSome
                    && isNullV (valueRemove cur (next :: rest2) prune).2
                  then (mapRemove (mapSet m n (valueRemove cur (next :: rest2) prune).2) n).2
                  else mapSet m n (valueRemove cur (next :: rest2) prune).2)))
  | .array a, .index i :: rest =>
    match rest with
    | [] =>
      match a[i]? with
      | some old => (some old, pruneSentinel prune (some old) (.array (a.eraseIdx i)))
      | none => (none, .array a)
    | next :: rest2 =>
      match a[i]? with
      | none => (none, .array a)
      | some cur =>
        ((valueRemove cur (next :: rest2) prune).1,
         pruneSentinel prune (valueRemove cur (next :: rest2) prune).1
           (.array (if prune && (valueRemove cur (next :: rest2) prune).1.isSome
                      && isNullV (valueRemove cur (next :: rest2) prune).2
                    then (a.set i (valueRemove cur (next :: rest2) prune).2).eraseIdx i
                    else a.set i (valueRemove cur (next :: rest2) prune).2)))
  | v, _ => (none, v)
termination_by sizeOf p
decreasing_by
  all_goals simp_wf
  · have := findNeedle_sizeOf _h
    omega

/-! ### Flattening iterators (modelled from the spec, §4.6) -/

mutual

/-- Modelled from the spec: `Value::lookups` (§4.6) — pre-order
enumeration of addressable sub-paths; container paths are emitted before
their children and suppressed in `only_leaves` mode; leaf paths always. -/
def valueLookups (v : Value) (pfx : Path) (onlyLeaves : Bool) : List Path :=
  match v with
  | .map m => (if onlyLeaves then [] else [pfx]) ++ mapLookups m pfx onlyLeaves
  | .array a => (if onlyLeaves then [] else [pfx]) ++ arrayLookups a 0 pfx onlyLeaves
  | _ => [pfx]

/-- Modelled from the spec: recursion of `valueLookups` into map children
in key order. -/
def mapLookups : List (String × Value) → Path → Bool → List Path
  | [], _, _ => []
  | (k, c) :: rest, pfx, ol =>
    valueLookups c (pfx ++ [.field k false]) ol ++ mapLookups rest pfx ol

/-- Modelled from the spec: recursion of `valueLookups` into array
children in index order. -/
def arrayLookups : List Value → Nat → Path → Bool → List Path
  | [], _, _, _ => []
  | c :: rest, i, pfx, ol =>
    valueLookups c (pfx ++ [.index i]) ol ++ arrayLookups rest (i + 1) pfx ol

end

mutual

/-- Modelled from the spec: `Value::pairs` (§4.6) — the same traversal as
`valueLookups`, additionally yielding the value at each emitted path. -/
def valuePairs (v : Value) (pfx : Path) (onlyLeaves : Bool) : List (Path × Value) :=
  match v with
  | .map m => (if onlyLeaves then [] else [(pfx, v)]) ++ mapPairs m pfx onlyLeaves
  | .array a => (if onlyLeaves then [] else [(pfx, v)]) ++ arrayPairs a 0 pfx onlyLeaves
  | _ => [(pfx, v)]

/-- Modelled from the spec: recursion of `valuePairs` into map children. -/
def mapPairs : List (String × Value) → Path → Bool → List (Path × Value)
  | [], _, _ => []
  | (k, c) :: rest, pfx, ol =>
    valuePairs c (pfx ++ [.field k false]) ol ++ mapPairs rest pfx ol

/-- Modelled from the spec: recursion of `valuePairs` into array children. -/
def arrayPairs : List Value → Nat → Path → Bool → List (Path × Value)
  | [], _, _, _ => []
  | c :: rest, i, pfx, ol =>
    valuePairs c (pfx ++ [.index i]) ol ++ arrayPairs rest (i + 1) pfx ol

end

/-! ### Root container operations (`LogEvent`, translated from
`src/lib/shared/src/event/log_event/mod.rs`)

The source's panic sites are kept explicit as `Except.error`:
`working_lookup.pop_front().unwrap()` on an empty lookup, the
`unreachable!` of `entry`, and the `.expect("Key not found.")` of the
indexing operators.  Typed diagnostics of the value layer are folded into
`None` exactly as the source's `unwrap_or_else(|e| ...)` does. -/

/-- `Option::is_some` applied to a `get` result (the `contains` test). -/
def isFound : Except String (Option Value) → Bool
  | .ok (some _) => true
  | _ => false

mutual

/-- `LogEvent::get` (lines 89–150): coalesce resolution, root-level field
terminus, delegation into the value node, and the `Index`-first error
branch that logs and returns `None`. -/
def lgGet (f : Fields) (p : Path) : Except String (Option Value) :=
  match p with
  | [] => .error "panic: stepped into an empty lookup"
  | .coalesce alts :: rest => lgGetCo f alts rest
  | .field n _ :: rest =>
    match rest with
    | [] => .ok (mapGet f n)
    | _ =>
      match mapGet f n with
      | some v => .ok (valueGet v rest)
      | none => .ok none
  | .index _ :: _ => .ok none
termination_by sizeOf p
decreasing_by
  all_goals simp_wf
  all_goals omega

/-- The coalesce loop of `LogEvent::get` (lines 101–120): first candidate
path for which `contains` is true; `Lookup::try_from(..).ok()?` returns
`None` for the whole call on an empty alternative. -/
def lgGetCo (f : Fields) (alts : List (List Segment)) (rest : Path) : Except String (Option Value) :=
  match alts with
  | [] => .ok none
  | alt :: more =>
    if alt.isEmpty then .ok none
    else if isFound (lgGet f (alt ++ rest)) then lgGet f (alt ++ rest)
    else lgGetCo f more rest
termination_by sizeOf alts + sizeOf rest
decreasing_by
  all_goals simp_wf
  all_goals have h1 := sizeOf_append alt rest
  all_goals omega

end

/-- `LogEvent::contains` (lines 241–247): defined as `get(..).is_some()`. -/
def lgContains (f : Fields) (p : Path) : Except String Bool :=
  (lgGet f p).map Option.isSome

/-- The Boolean reading of `contains` on a non-panicking lookup. -/
def containsB (f : Fields) (p : Path) : Bool :=
  isFound (lgGet f p)

/-- `LogEvent::get_mut` (lines 165–226): identical dispatch to `get`; the
coalesce loop tests candidates with (immutable) `contains`. -/
def lgGetMut (f : Fields) (p : Path) : Except String (Option Value) :=
  match p with
  | [] => .error "panic: stepped into an empty lookup"
  | .coalesce alts :: rest =>
    match _h : findNeedle (containsB f) alts rest with
    | some c => lgGetMut f c
    | none => .ok none
  | .field n _ :: rest =>
    match rest with
    | [] => .ok (mapGet f n)
    | _ =>
      match mapGet f n with
      | some v => .ok (valueGetMut v rest)
      | none => .ok none
  | .index _ :: _ => .ok none
termination_by sizeOf p
decreasing_by
  all_goals simp_wf
  · have := findNeedle_sizeOf _h
    omega

/-- `LogEvent::insert` (lines 262–349): coalesce groups insert at the
first candidate whose `contains` is false (no-overwrite policy); a
terminating field inserts at the root map; otherwise the auto-vivified (or
existing) node receives the remaining path; an `Index` first segment logs
and returns `None`. -/
def lgInsert (f : Fields) (p : Path) (v : Value) : Except String (Option Value × Fields) :=
  match p with
  | [] => .error "panic: stepped into an empty lookup"
  | .coalesce alts :: rest =>
    match _h : findNeedle (fun c => !containsB f c) alts rest with
    | some c => lgInsert f c v
    | none => .ok (none, f)
  | .field n _ :: rest =>
    match rest with
    | [] => .ok (mapInsert f n v)
    | next :: rest2 =>
      match decideNext next with
      | none => .ok (none, f)
      | some nv =>
        .ok ((valueInsert ((mapGet f n).getD nv) (next :: rest2) v).1,
             mapSet f n (valueInsert ((mapGet f n).getD nv) (next :: rest2) v).2)
  | .index _ :: _ => .ok (none, f)
termination_by sizeOf p
decreasing_by
  all_goals simp_wf
  · have := findNeedle_sizeOf _h
    omega

/-- `LogEvent::remove` (lines 368–440): coalesce groups remove at the
first candidate whose `contains` is true; after the terminus removal or
the delegated removal, `prune` deletes the field whose value is now
`Value::Null` (lines 412–414, 425–427). -/
def lgRemove (f : Fields) (p : Path) (prune : Bool) : Except String (Option Value × Fields) :=
  match p with
  | [] => .error "panic: stepped into an empty lookup"
  | .coalesce alts :: rest =>
    match _h : findNeedle (containsB f) alts rest with
    | some c => lgRemove f c prune
    | none => .ok (none, f)
  | .field n _ :: rest =>
    match rest with
    | [] =>
      .ok ((mapRemove f n).1,
           if prune && isNullOpt (mapGet (mapRemove f n).2 n)
           then (mapRemove (mapRemove f n).2 n).2 else (mapRemove f n).2)
    | next :: rest2 =>
      match mapGet f n with
      | some v =>
        .ok ((valueRemove v (next :: rest2) prune).1,
             if prune && isNullOpt (mapGet (mapSet f n (valueRemove v (next :: rest2) prune).2) n)
             then (mapRemove (mapSet f n (valueRemove v (next :: rest2) prune).2) n).2
             else mapSet f n (valueRemove v (next :: rest2) prune).2)
      | none =>
        .ok (none,
             if prune && isNullOpt (mapGet f n) then (mapRemove f n).2 else f)
  | .index _ :: _ => .ok (none, f)
termination_by sizeOf p
decreasing_by
  all_goals simp_wf
  · have := findNeedle_sizeOf _h
    omega

/-- The outcome of `LogEvent::entry`: the `unreachable!` branch, a
descriptive `Err`, or an `Entry` cursor at the final field (its key and
the value currently there, `none` for a vacant slot). -/
inductive EntryOutcome where
  | panicked (msg : String)
  | failure (msg : String)
  | cursor (key : String) (val : Option Value)
deriving Inhabited

/-- The walker loop of `LogEvent::entry` (lines 556–586): only `Field`
segments into occupied `Map` nodes may be stepped through; everything
else is a descriptive error. -/
def entryLoop : String → Option Value → Path → EntryOutcome
  | key, cur, [] => .cursor key cur
  | _, cur, .field m _ :: rest =>
    match cur with
    | some (.map inner) => entryLoop m (mapGet inner m) rest
    | some _ => .failure "Looking up field on a non-map value"
    | none => .failure ("Tried to step into `" ++ m ++ "`, but it did not exist.")
  | _, _, _ :: _ => .failure "The entry API cannot yet descend into array indices."

/-- `LogEvent::entry` (lines 534–589): the first segment must be a
`Field` (anything else reaches the `unreachable!` branch); the walker then
steps through the remaining segments.  The source's `Entry` API performs
no structural mutation, so the fields map is read-only here. -/
def lgEntry (f : Fields) (p : Path) : EntryOutcome :=
  match p with
  | .field n _ :: rest => entryLoop n (mapGet f n) rest
  | _ => .panicked "unreachable: a Lookup without a leading Field segment"

/-- `Index for LogEvent` (lines 712–721): `get(..).expect("Key not found.")`. -/
def lgIndex (f : Fields) (p : Path) : Except String Value :=
  match lgGet f p with
  | .error e => .error e
  | .ok (some v) => .ok v
  | .ok none => .error "panic: Key not found."

/-- `IndexMut for LogEvent` (lines 723–730): `get_mut(..).expect("Key not found.")`. -/
def lgIndexMut (f : Fields) (p : Path) : Except String Value :=
  match lgGetMut f p with
  | .error e => .error e
  | .ok (some v) => .ok v
  | .ok none => .error "panic: Key not found."

/-- `LogEvent::keys` (lines 466–474): flattened lookups of every
top-level field in key order. -/
def lgKeys : Fields → Bool → List Path
  | [], _ => []
  | (k, v) :: rest, ol => valueLookups v [.field k false] ol ++ lgKeys rest ol

/-- `LogEvent::pairs` (lines 510–518): flattened lookup/value pairs. -/
def lgPairs : Fields → Bool → List (Path × Value)
  | [], _ => []
  | (k, v) :: rest, ol => valuePairs v [.field k false] ol ++ lgPairs rest ol

/-! ### Auxiliary predicates used in the statements -/

/-- A computation that did not reach a panic branch. -/
def exOk {α : Type} : Except String α → Bool
  | .ok _ => true
  | .error _ => false

/-- Keys of an association level in strictly increasing order — the
`BTreeMap` representation invariant. -/
def keysSorted (m : List (String × Value)) : Bool :=
  decide (List.Pairwise (fun a b => a.1 < b.1) m)

mutual

/-- Every map level of the tree satisfies the `BTreeMap` invariant. -/
def treeOk : Value → Bool
  | .map m => keysSorted m && mapOk m
  | .array a => arrOk a
  | _ => true

/-- `treeOk` over the entries of a map node. -/
def mapOk : List (String × Value) → Bool
  | [] => true
  | (_, v) :: rest => treeOk v && mapOk rest

/-- `treeOk` over the elements of an array node. -/
def arrOk : List Value → Bool
  | [] => true
  | v :: rest => treeOk v && arrOk rest

end

/-- Representation invariant of a root container. -/
def fieldsOk (f : Fields) : Bool :=
  keysSorted f && mapOk f

/-- A plain `Field` segment. -/
def isFieldSeg : Segment → Bool
  | .field _ _ => true
  | _ => false

/-- A non-empty path made only of plain `Field` segments. -/
def fieldsPath (p : Path) : Bool :=
  !p.isEmpty && p.all isFieldSeg

/-- Descent compatibility of a field-only path below the root: every
level strictly before the terminus is an existing `Map` (or absent, in
which case insert auto-vivifies an empty map there). -/
def compatV : Value → Path → Bool
  | .map _, [.field _ _] => true
  | .map m, .field n _ :: next :: rest2 => compatV ((mapGet m n).getD (.map [])) (next :: rest2)
  | _, _ => false

/-- Descent compatibility of a field-only path at the root container. -/
def compatRoot : Fields → Path → Bool
  | _, [.field _ _] => true
  | f, .field n _ :: next :: rest2 => compatV ((mapGet f n).getD (.map [])) (next :: rest2)
  | _, _ => false

/-- A path of plain unquoted fields, one per name. -/
def chainPath (names : List String) : Path :=
  names.map (fun n => .field n false)

/-- The nested singleton-map chain produced by inserting along a fresh
field chain. -/
def nestedSingleton : List String → Value → Value
  | [], v => v
  | n :: t, v => .map [(n, nestedSingleton t v)]

/-- The error condition of the `entry` walker, stated from §7's three
cases: descending into a non-map value, stepping into a field that does
not exist before reaching the terminus, or meeting a segment that is not a
plain field. -/
def walkErr : Option Value → Path → Bool
  | _, [] => false
  | cur, .field m _ :: rest =>
    match cur with
    | some (.map inner) => walkErr (mapGet inner m) rest
    | some _ => true
    | none => true
  | _, _ :: _ => true

/-! ## Lemmas about the association-list map operations -/

lemma mapGet_mapInsert_self (m : List (String × Value)) (n : String) (v : Value) :
    mapGet (mapInsert m n v).2 n = some v := by
  induction m with
  | nil => simp [mapInsert, mapGet]
  | cons kv rest ih =>
    obtain ⟨k, w⟩ := kv
    by_cases h : n = k
    · simp [mapInsert, h, mapGet]
    · by_cases h2 : n < k
      · simp [mapInsert, h, h2, mapGet]
      · simp [mapInsert, h, h2, mapGet, ih]

lemma mapGet_mapSet_self (m : List (String × Value)) (n : String) (v : Value) :
    mapGet (mapSet m n v) n = some v :=
  mapGet_mapInsert_self m n v

lemma mapGet_eq_none_of_forall_ne {m : List (String × Value)} {n : String}
    (h : ∀ q ∈ m, n ≠ q.1) : mapGet m n = none := by
  induction m with
  | nil => rfl
  | cons kv rest ih =>
    obtain ⟨k, w⟩ := kv
    have h1 : n ≠ k := h (k, w) (List.mem_cons_self _ _)
    rw [mapGet]
    simp only [if_neg h1]
    exact ih (fun q hq => h q (List.mem_cons_of_mem _ hq))

lemma mapInsert_mem {m : List (String × Value)} {n : String} {v : Value} {q : String × Value}
    (h : q ∈ (mapInsert m n v).2) : q.1 = n ∨ q ∈ m := by
  induction m with
  | nil =>
    simp [mapInsert] at h
    simp [h]
  | cons kv rest ih =>
    obtain ⟨k, w⟩ := kv
    by_cases h1 : n = k
    · rw [mapInsert] at h
      simp only [if_pos h1, List.mem_cons] at h
      rcases h with h | h
      · simp [h]
      · exact Or.inr (List.mem_cons_of_mem _ h)
    · by_cases h2 : n < k
      · rw [mapInsert] at h
        simp only [if_neg h1, if_pos h2, List.mem_cons] at h
        rcases h with h | h | h
        · simp [h]
        · exact Or.inr (by simp [h])
        · exact Or.inr (List.mem_cons_of_mem _ h)
      · rw [mapInsert] at h
        simp only [if_neg h1, if_neg h2, List.mem_cons] at h
        rcases h with h | h
        · exact Or.inr (by simp [h])
        · rcases ih h with h3 | h3
          · exact Or.inl h3
          · exact Or.inr (List.mem_cons_of_mem _ h3)

lemma keysSorted_mapInsert {m : List (String × Value)} {n : String} {v : Value}
    (h : keysSorted m = true) : keysSorted (mapInsert m n v).2 = true := by
  simp only [keysSorted, decide_eq_true_eq] at h ⊢
  induction m with
  | nil => simp [mapInsert]
  | cons kv rest ih =>
    obtain ⟨k, w⟩ := kv
    rw [List.pairwise_cons] at h
    obtain ⟨hk, hrest⟩ := h
    by_cases h1 : n = k
    · subst h1
      have he : mapInsert ((n, w) :: rest) n v = (some w, (n, v) :: rest) := by
        rw [mapInsert]; simp
      rw [he, List.pairwise_cons]
      exact ⟨hk, hrest⟩
    · by_cases h2 : n < k
      · have he : mapInsert ((k, w) :: rest) n v = (none, (n, v) :: (k, w) :: rest) := by
          rw [mapInsert]; simp [h1, h2]
        rw [he, List.pairwise_cons, List.pairwise_cons]
        refine ⟨?_, hk, hrest⟩
        intro q hq
        rcases List.mem_cons.mp hq with hq1 | hq1
        · subst hq1; exact h2
        · exact lt_trans h2 (hk q hq1)
      · have he : mapInsert ((k, w) :: rest) n v
            = ((mapInsert rest n v).1, (k, w) :: (mapInsert rest n v).2) := by
          rw [mapInsert]; simp [h1, h2]
        rw [he, List.pairwise_cons]
        refine ⟨?_, ih hrest⟩
        intro q hq
        rcases mapInsert_mem hq with h3 | h3
        · rw [h3]
          rcases lt_trichotomy n k with h4 | h4 | h4
          · exact absurd h4 h2
          · exact absurd h4 h1
          · exact h4
        · exact hk q h3

lemma mapRemove_sublist (m : List (String × Value)) (n : String) :
    (mapRemove m n).2.Sublist m := by
  induction m with
  | nil => simp [mapRemove]
  | cons kv rest ih =>
    obtain ⟨k, w⟩ := kv
    by_cases h : n = k
    · simp [mapRemove, h]
    · simp only [mapRemove, if_neg h]
      exact List.Sublist.cons₂ _ ih

lemma keysSorted_mapRemove {m : List (String × Value)} {n : String}
    (h : keysSorted m = true) : keysSorted (mapRemove m n).2 = true := by
  simp only [keysSorted, decide_eq_true_eq] at h ⊢
  exact h.sublist (mapRemove_sublist m n)

lemma mapGet_mapRemove_self {m : List (String × Value)} {n : String}
    (h : keysSorted m = true) : mapGet (mapRemove m n).2 n = none := by
  simp only [keysSorted, decide_eq_true_eq] at h
  induction m with
  | nil => rfl
  | cons kv rest ih =>
    obtain ⟨k, w⟩ := kv
    rw [List.pairwise_cons] at h
    obtain ⟨hk, hrest⟩ := h
    by_cases h1 : n = k
    · subst h1
      rw [mapRemove]
      simp only [if_pos rfl]
      exact mapGet_eq_none_of_forall_ne (fun q hq => ne_of_lt (hk q hq))
    · rw [mapRemove]
      simp only [if_neg h1]
      rw [mapGet]
      simp only [if_neg h1]
      exact ih hrest

lemma mapOk_iff (m : List (String × Value)) :
    mapOk m = true ↔ ∀ kv ∈ m, treeOk kv.2 = true := by
  induction m with
  | nil => simp [mapOk]
  | cons kv rest ih =>
    obtain ⟨k, w⟩ := kv
    rw [mapOk]
    simp [ih]

lemma mapGet_treeOk {m : List (String × Value)} {n : String} {v : Value}
    (hok : mapOk m = true) (h : mapGet m n = some v) : treeOk v = true := by
  induction m with
  | nil => simp [mapGet] at h
  | cons kv rest ih =>
    obtain ⟨k, w⟩ := kv
    rw [mapOk] at hok
    simp at hok
    rw [mapGet] at h
    by_cases h1 : n = k
    · simp [h1] at h
      exact h ▸ hok.1
    · simp [h1] at h
      exact ih hok.2 h

lemma mapOk_mapInsert {m : List (String × Value)} {n : String} {v : Value}
    (hok : mapOk m = true) (hv : treeOk v = true) : mapOk (mapInsert m n v).2 = true := by
  induction m with
  | nil => simp [mapInsert, mapOk, hv]
  | cons kv rest ih =>
    obtain ⟨k, w⟩ := kv
    rw [mapOk] at hok
    simp at hok
    by_cases h1 : n = k
    · rw [mapInsert]
      simp only [if_pos h1]
      rw [mapOk]
      simp [hv, hok.2]
    · by_cases h2 : n < k
      · rw [mapInsert]
        simp only [if_neg h1, if_pos h2]
        rw [mapOk, mapOk]
        simp [hv, hok.1, hok.2]
      · rw [mapInsert]
        simp only [if_neg h1, if_neg h2]
        rw [mapOk]
        simp [hok.1, ih hok.2]

lemma mapOk_mapRemove {m : List (String × Value)} {n : String}
    (hok : mapOk m = true) : mapOk (mapRemove m n).2 = true := by
  rw [mapOk_iff] at hok ⊢
  intro kv hkv
  exact hok kv ((mapRemove_sublist m n).mem hkv)

/-! ## Coalesce resolution characterization -/

lemma findNeedle_eq_find {test : Path → Bool} {alts : List (List Segment)} (rest : Path)
    (h : altsOk alts = true) :
    findNeedle test alts rest = (alts.map (fun a => a ++ rest)).find? test := by
  induction alts with
  | nil => simp [findNeedle]
  | cons alt more ih =>
    rw [altsOk] at h
    simp only [List.all_cons, Bool.and_eq_true, Bool.not_eq_true'] at h
    obtain ⟨h1, h2⟩ := h
    rw [findNeedle]
    simp only [h1, Bool.false_eq_true, if_false, List.map_cons]
    by_cases ht : test (alt ++ rest)
    · rw [if_pos ht, List.find?_cons_of_pos _ ht]
    · rw [if_neg ht, List.find?_cons_of_neg _ ht]
      exact ih (by simpa [altsOk] using h2)

lemma lgGetCo_eq (f : Fields) (alts : List (List Segment)) (rest : Path) :
    lgGetCo f alts rest
      = match findNeedle (containsB f) alts rest with
        | some c => lgGet f c
        | none => .ok none := by
  induction alts with
  | nil => rw [lgGetCo, findNeedle]
  | cons alt more ih =>
    rw [lgGetCo, findNeedle]
    by_cases he : alt.isEmpty
    · simp [he]
    · simp only [he, Bool.false_eq_true, if_false]
      by_cases ht : containsB f (alt ++ rest)
      · rw [containsB] at ht
        simp [ht, containsB]
      · rw [containsB] at ht
        simp only [Bool.not_eq_true] at ht
        simp [ht, containsB, ih]

lemma valueGetCo_eq (v : Value) (alts : List (List Segment)) (rest : Path) :
    valueGetCo v alts rest
      = match findNeedle (fun c => (valueGet v c).isSome) alts rest with
        | some c => valueGet v c
        | none => none := by
  induction alts with
  | nil => rw [valueGetCo, findNeedle]
  | cons alt more ih =>
    rw [valueGetCo, findNeedle]
    by_cases he : alt.isEmpty
    · simp [he]
    · simp only [he, Bool.false_eq_true, if_false]
      by_cases ht : (valueGet v (alt ++ rest)).isSome
      · simp [ht]
      · simp only [Bool.not_eq_true] at ht
        simp [ht, ih]

/-! ### Plain-match unfolding equations for the coalesce arms

The definitions bind the needle equation for their termination proofs;
these lemmas restate those arms as ordinary matches. -/

lemma valueGetMut_coalesce (v : Value) (alts : List (List Segment)) (rest : Path) :
    valueGetMut v (.coalesce alts :: rest)
      = match findNeedle (fun c => (valueGet v c).isSome) alts rest with
        | some c => valueGetMut v c
        | none => none := by
  rw [valueGetMut]
  split <;> rename_i heq <;> rw [heq]

lemma valueInsert_coalesce (v : Value) (alts : List (List Segment)) (rest : Path) (newv : Value) :
    valueInsert v (.coalesce alts :: rest) newv
      = match findNeedle (fun c => !(valueGet v c).isSome) alts rest with
        | some c => valueInsert v c newv
        | none => (none, v) := by
  rw [valueInsert]
  split <;> rename_i heq <;> rw [heq]

lemma valueRemove_coalesce (v : Value) (alts : List (List Segment)) (rest : Path) (prune : Bool) :
    valueRemove v (.coalesce alts :: rest) prune
      = match findNeedle (fun c => (valueGet v c).isSome) alts rest with
        | some c => valueRemove v c prune
        | none => (none, v) := by
  rw [valueRemove]
  split <;> rename_i heq <;> rw [heq]

lemma lgGetMut_coalesce (f : Fields) (alts : List (List Segment)) (rest : Path) :
    lgGetMut f (.coalesce alts :: rest)
      = match findNeedle (containsB f) alts rest with
        | some c => lgGetMut f c
        | none => .ok none := by
  rw [lgGetMut]
  split <;> rename_i heq <;> rw [heq]

lemma lgInsert_coalesce (f : Fields) (alts : List (List Segment)) (rest : Path) (v : Value) :
    lgInsert f (.coalesce alts :: rest) v
      = match findNeedle (fun c => !containsB f c) alts rest with
        | some c => lgInsert f c v
        | none => .ok (none, f) := by
  rw [lgInsert]
  split <;> rename_i heq <;> rw [heq]

lemma lgRemove_coalesce (f : Fields) (alts : List (List Segment)) (rest : Path) (prune : Bool) :
    lgRemove f (.coalesce alts :: rest) prune
      = match findNeedle (containsB f) alts rest with
        | some c => lgRemove f c prune
        | none => .ok (none, f) := by
  rw [lgRemove]
  split <;> rename_i heq <;> rw [heq]

/-! ## Claim theorems -/

/-- C7: for every path whose first segment is an `Index`, the best-effort
operations `get`, `get_mut`, `insert` and `remove` against the root
container return "not found" — `None`, with the fields untouched for
`insert` and `remove` — instead of crashing. -/
theorem c7_index_first_is_not_found (f : Fields) (i : Nat) (rest : Path) (v : Value)
    (prune : Bool) :
    lgGet f (.index i :: rest) = .ok none ∧
    lgGetMut f (.index i :: rest) = .ok none ∧
    lgInsert f (.index i :: rest) v = .ok (none, f) ∧
    lgRemove f (.index i :: rest) prune = .ok (none, f) := by
  refine ⟨?_, ?_, ?_, ?_⟩
  · rw [lgGet]
  · rw [lgGetMut]
  · rw [lgInsert]
  · rw [lgRemove]

/-- C4: for `get`, `contains` and `remove` through a coalesce group whose
alternatives are non-empty (the parser contract), the alternatives are
tried in declaration order, the first candidate path (alternative followed
by the remainder) for which `contains` is true is selected and the
operation is performed against it; when no candidate holds a value the
operation reports "not found" and, for `remove`, leaves the fields
unchanged. -/
theorem c4_coalesce_read_first_contained (f : Fields) (alts : List (List Segment))
    (rest : Path) (prune : Bool) (h : altsOk alts = true) :
    (lgGet f (.coalesce alts :: rest)
      = match (alts.map (fun a => a ++ rest)).find? (containsB f) with
        | some c => lgGet f c
        | none => .ok none) ∧
    (lgContains f (.coalesce alts :: rest)
      = match (alts.map (fun a => a ++ rest)).find? (containsB f) with
        | some c => lgContains f c
        | none => .ok false) ∧
    (lgRemove f (.coalesce alts :: rest) prune
      = match (alts.map (fun a => a ++ rest)).find? (containsB f) with
        | some c => lgRemove f c prune
        | none => .ok (none, f)) := by
  have hget : lgGet f (.coalesce alts :: rest)
      = match (alts.map (fun a => a ++ rest)).find? (containsB f) with
        | some c => lgGet f c
        | none => .ok none := by
    rw [lgGet, lgGetCo_eq, findNeedle_eq_find rest h]
  refine ⟨hget, ?_, ?_⟩
  · simp only [lgContains]
    rw [hget]
    cases hf : (alts.map (fun a => a ++ rest)).find? (containsB f) with
    | none => rfl
    | some c => rfl
  · rw [lgRemove_coalesce, findNeedle_eq_find rest h]

/-- C1: for `insert` through a coalesce group whose alternatives are
non-empty (the parser contract), the alternatives are tried in declaration
order and the value is inserted at the first candidate path for which
`contains` is false; when every candidate already holds a value the insert
returns nothing, discards the value and leaves the fields unchanged.
Consequently (last two conjuncts) inserting the coalesce path
`(snoot | boot.beep).leep` twice fills `snoot.leep` first and
`boot.beep.leep` second. -/
theorem c1_coalesce_insert_first_vacant (f : Fields) (alts : List (List Segment))
    (rest : Path) (v : Value) (h : altsOk alts = true) :
    (lgInsert f (.coalesce alts :: rest) v
      = match (alts.map (fun a => a ++ rest)).find? (fun c => !containsB f c) with
        | some c => lgInsert f c v
        | none => .ok (none, f)) ∧
    ((∀ c ∈ alts.map (fun a => a ++ rest), containsB f c = true) →
      lgInsert f (.coalesce alts :: rest) v = .ok (none, f)) ∧
    lgInsert []
        [.coalesce [[.field "snoot" false], [.field "boot" false, .field "beep" false]],
          .field "leep" false] (.integer 1)
      = .ok (none, [("snoot", .map [("leep", .integer 1)])]) ∧
    lgInsert [("snoot", .map [("leep", .integer 1)])]
        [.coalesce [[.field "snoot" false], [.field "boot" false, .field "beep" false]],
          .field "leep" false] (.integer 1)
      = .ok (none, [("boot", .map [("beep", .map [("leep", .integer 1)])]),
                    ("snoot", .map [("leep", .integer 1)])]) := by
  have hsel : lgInsert f (.coalesce alts :: rest) v
      = match (alts.map (fun a => a ++ rest)).find? (fun c => !containsB f c) with
        | some c => lgInsert f c v
        | none => .ok (none, f) := by
    rw [lgInsert_coalesce, findNeedle_eq_find rest h]
  refine ⟨hsel, ?_, ?_, ?_⟩
  · intro hall
    rw [hsel]
    have : (alts.map (fun a => a ++ rest)).find? (fun c => !containsB f c) = none := by
      rw [List.find?_eq_none]
      intro c hc
      simp [hall c hc]
    rw [this]
  · rw [lgInsert_coalesce]
    simp [findNeedle, containsB, isFound, lgGet, lgGetCo, lgInsert, valueInsert, valueGet,
      decideNext, mapGet, mapInsert, mapSet]
  · rw [lgInsert_coalesce]
    have hbs : (['b', 'o', 'o', 't'] : List Char) < ['s', 'n', 'o', 'o', 't'] := by decide
    simp [findNeedle, containsB, isFound, lgGet, lgGetCo, lgInsert, valueInsert, valueGet,
      decideNext, mapGet, mapInsert, mapSet, hbs]

/-- C5: when an insert continues past a root field that is currently
absent, the auto-created container is decided by the next segment —
`Index` creates an empty array, `Field` an empty map, and a `Coalesce`
group is decided by its first alternative's first segment, recursively
through nested coalesces; when that chain does not resolve the insert
returns nothing and the fields are unchanged. -/
theorem c5_insert_vivification (f : Fields) (n : String) (q : Bool) (next : Segment)
    (rest2 : Path) (v : Value) (h : mapGet f n = none) :
    (lgInsert f (.field n q :: next :: rest2) v
      = match decideNext next with
        | none => .ok (none, f)
        | some nv =>
          .ok ((valueInsert nv (next :: rest2) v).1,
               mapSet f n (valueInsert nv (next :: rest2) v).2)) ∧
    (∀ i, decideNext (.index i) = some (.array [])) ∧
    (∀ m q2, decideNext (.field m q2) = some (.map [])) ∧
    (∀ set2, decideNext (.coalesce set2) = coalesceVivify set2) ∧
    coalesceVivify [] = none ∧
    (∀ others, coalesceVivify ([] :: others) = none) ∧
    (∀ m q2 a1 others, coalesceVivify ((Segment.field m q2 :: a1) :: others) = some (.map [])) ∧
    (∀ i a1 others, coalesceVivify ((Segment.index i :: a1) :: others) = some (.array [])) ∧
    (∀ set2 a1 others,
      coalesceVivify ((Segment.coalesce set2 :: a1) :: others) = coalesceVivify set2) := by
  refine ⟨?_, fun i => rfl, fun m q2 => rfl, fun set2 => rfl, by rw [coalesceVivify],
    fun others => by rw [coalesceVivify], fun m q2 a1 others => by rw [coalesceVivify],
    fun i a1 others => by rw [coalesceVivify], fun set2 a1 others => by rw [coalesceVivify]⟩
  cases hd : decideNext next with
  | none => simp [lgInsert, hd]
  | some nv => simp [lgInsert, hd, h, mapSet]

lemma valueGetMut_eq_valueGet (v : Value) (p : Path) : valueGetMut v p = valueGet v p := by
  induction v, p using valueGetMut.induct with
  | case1 v => rw [valueGetMut, valueGet]
  | case2 v alts rest c hf ih =>
    rw [valueGetMut_coalesce, hf, valueGet, valueGetCo_eq, hf]
    exact ih
  | case3 v alts rest hf =>
    rw [valueGetMut_coalesce, hf, valueGet, valueGetCo_eq, hf]
  | case4 m n q rest c hc ih => simp [valueGetMut, valueGet, hc, ih]
  | case5 m n q rest hc => simp [valueGetMut, valueGet, hc]
  | case6 a i rest c hc ih => simp [valueGetMut, valueGet, hc, ih]
  | case7 a i rest hc => simp [valueGetMut, valueGet, hc]
  | case8 v p h1 h2 h3 h4 =>
    cases p with
    | nil => exact absurd rfl h1
    | cons s rest =>
      cases s with
      | coalesce alts => exact (h2 alts rest rfl).elim
      | field n q =>
        cases v
        case map m => exact (h3 m n q rest rfl rfl).elim
        all_goals simp [valueGetMut, valueGet]
      | index i =>
        cases v
        case array a => exact (h4 a i rest rfl rfl).elim
        all_goals simp [valueGetMut, valueGet]

lemma lgGetMut_eq_lgGet (f : Fields) (p : Path) :
    lgGetMut f p = lgGet f p := by
  induction p using lgGetMut.induct with
  | f => exact f
  | case1 => rw [lgGetMut, lgGet]
  | case2 alts rest c hf ih =>
    rw [lgGetMut_coalesce, hf, lgGet, lgGetCo_eq, hf]
    exact ih
  | case3 alts rest hf =>
    rw [lgGetMut_coalesce, hf, lgGet, lgGetCo_eq, hf]
  | case4 n q => simp [lgGetMut, lgGet]
  | case5 n q rest c hc hne =>
    cases rest with
    | nil => exact (hne rfl).elim
    | cons s t => simp [lgGetMut, lgGet, hc, valueGetMut_eq_valueGet]
  | case6 n q rest hc hne =>
    cases rest with
    | nil => exact (hne rfl).elim
    | cons s t => simp [lgGetMut, lgGet, hc]
  | case7 i tail => rw [lgGetMut, lgGet]

/-- C9: `get_mut` performs the identical dispatch to `get` — on every
fields map and path they return a reference to a value in exactly the same
cases, and it is the same value. -/
theorem c9_get_mut_identical_dispatch (f : Fields) (p : Path) :
    lgGetMut f p = lgGet f p :=
  lgGetMut_eq_lgGet f p

lemma valueRemove_fst (v : Value) (p : Path) (prune prune2 : Bool) :
    (valueRemove v p prune).1 = (valueRemove v p prune2).1 := by
  induction v, p, prune using valueRemove.induct generalizing prune2 with
  | case1 prune v => simp [valueRemove]
  | case2 prune v alts rest c hf ih =>
    simp only [valueRemove_coalesce, hf]
    exact ih prune2
  | case3 prune v alts rest hf =>
    simp only [valueRemove_coalesce, hf]
  | case4 prune m n q => simp [valueRemove]
  | case5 prune m n q next rest2 hnone => simp [valueRemove, hnone]
  | case6 prune m n q next rest2 nv hsome ih =>
    simp only [valueRemove, hsome]
    exact ih prune2
  | case7 prune a i c hsome => simp [valueRemove, hsome]
  | case8 prune a i hnone => simp [valueRemove, hnone]
  | case9 prune a i next rest2 hnone => simp [valueRemove, hnone]
  | case10 prune a i next rest2 nv hsome ih =>
    simp only [valueRemove, hsome]
    exact ih prune2
  | case11 v p prune h1 h2 h3 h4 =>
    cases p with
    | nil => exact absurd rfl h1
    | cons s rest =>
      cases s with
      | coalesce alts => exact (h2 alts rest rfl).elim
      | field n q =>
        cases v
        case map m => exact (h3 m n q rest rfl rfl).elim
        all_goals simp [valueRemove]
      | index i =>
        cases v
        case array a => exact (h4 a i rest rfl rfl).elim
        all_goals simp [valueRemove]

/-- C10: the value returned by `remove` is independent of the `prune`
flag; `prune` only affects which keys remain in the fields afterwards. -/
theorem c10_remove_value_prune_independent (f : Fields) (p : Path) (b1 b2 : Bool) :
    (lgRemove f p b1).map Prod.fst = (lgRemove f p b2).map Prod.fst := by
  induction p, b1 using lgRemove.induct generalizing b2 with
  | f => exact f
  | case1 prune => simp [lgRemove]
  | case2 prune alts rest c hf ih =>
    simp only [lgRemove_coalesce, hf]
    exact ih b2
  | case3 prune alts rest hf =>
    simp only [lgRemove_coalesce, hf]
  | case4 prune n q => simp [lgRemove, Except.map]
  | case5 prune n q next rest2 c hsome =>
    simp [lgRemove, hsome, Except.map]
    exact valueRemove_fst c (next :: rest2) _ b2
  | case6 prune n q next rest2 hnone => simp [lgRemove, hnone, Except.map]
  | case7 prune i tail => simp [lgRemove]

lemma insert_chain (v : Value) :
    ∀ t : List String, t ≠ [] →
      valueInsert (.map []) (chainPath t) v = (none, nestedSingleton t v) := by
  intro t
  induction t with
  | nil => intro h; exact absurd rfl h
  | cons n t ih =>
    intro _
    cases t with
    | nil => simp [chainPath, valueInsert, mapInsert, nestedSingleton]
    | cons m t2 =>
      have ih2 := ih (by simp)
      simp only [chainPath, List.map_cons] at ih2 ⊢
      simp [valueInsert, decideNext, mapGet, mapSet, mapInsert, nestedSingleton, ih2]

lemma remove_chain (v : Value) :
    ∀ t : List String, t ≠ [] →
      valueRemove (nestedSingleton t v) (chainPath t) true = (some v, .null) := by
  intro t
  induction t with
  | nil => intro h; exact absurd rfl h
  | cons n t ih =>
    intro _
    cases t with
    | nil =>
      simp [chainPath, nestedSingleton, valueRemove, mapRemove, mapGet, isNullOpt,
        pruneSentinel, isEmptyContainer]
    | cons m t2 =>
      have ih2 := ih (by simp)
      simp only [chainPath, List.map_cons, nestedSingleton] at ih2 ⊢
      simp [valueRemove, mapGet, mapSet, mapInsert, mapRemove, isNullV, isNullOpt,
        pruneSentinel, isEmptyContainer, ih2]

lemma mapInsert_mapInsert (m : List (String × Value)) (n : String) (X Y : Value) :
    (mapInsert (mapInsert m n X).2 n Y).2 = (mapInsert m n Y).2 := by
  induction m with
  | nil => simp [mapInsert]
  | cons kv rest ih =>
    obtain ⟨k, w⟩ := kv
    by_cases h1 : n = k
    · simp [mapInsert, h1]
    · by_cases h2 : n < k
      · simp [mapInsert, h1, h2]
      · simp [mapInsert, h1, h2, ih]

lemma mapRemove_mapInsert {m0 : List (String × Value)} {n : String} (X : Value)
    (hn : mapGet m0 n = none) : mapRemove (mapInsert m0 n X).2 n = (some X, m0) := by
  induction m0 with
  | nil => simp [mapInsert, mapRemove]
  | cons kv rest ih =>
    obtain ⟨k, w⟩ := kv
    rw [mapGet] at hn
    by_cases h1 : n = k
    · simp [h1] at hn
    · simp only [if_neg h1] at hn
      by_cases h2 : n < k
      · simp [mapInsert, h1, h2, mapRemove]
      · simp [mapInsert, h1, h2, mapRemove, ih hn]

lemma remove_chain_stops (v : Value) (n : String) (m0 : List (String × Value))
    (hn : mapGet m0 n = none) (hne : m0 ≠ []) :
    ∀ t : List String,
      valueRemove (.map (mapInsert m0 n (nestedSingleton t v)).2) (chainPath (n :: t)) true
        = (some v, .map m0) := by
  intro t
  cases m0 with
  | nil => exact absurd rfl hne
  | cons kv0 ms =>
    cases t with
    | nil =>
      have hmr := mapRemove_mapInsert v hn
      simp only [chainPath, List.map_nil, List.map_cons, nestedSingleton]
      simp [valueRemove, hmr, hn, isNullOpt, pruneSentinel, isEmptyContainer]
    | cons n2 t2 =>
      have hx := mapGet_mapInsert_self (kv0 :: ms) n (nestedSingleton (n2 :: t2) v)
      have hrc := remove_chain v (n2 :: t2) (by simp)
      have hmr := mapRemove_mapInsert Value.null hn
      simp only [chainPath, List.map_cons] at hrc ⊢
      simp [valueRemove, hx, hrc, mapSet, mapInsert_mapInsert, hmr, isNullV,
        pruneSentinel, isEmptyContainer]

/-- C3: `remove` with `prune = true` cascades, and stops exactly where the
claim says.  For a fresh field chain of any length: the insert builds a
nested singleton chain (conjunct 1) and the pruning removal deletes the
whole chain of now-empty ancestors up to the root (conjunct 2).  When a
level still has other content (`m0`), the cascade deletes only the chain's
key and terminates there: the level reverts exactly to its other content,
whether that level is the root (conjunct 3) or a deeper level, with every
ancestor above it left untouched (conjunct 4).  In particular, after
`insert("foo.bar.baz", 1)`, `remove("foo.bar.baz", prune=true)` leaves
neither `foo.bar` nor `foo` present, while with `prune = false` the
emptied intermediate containers remain (remaining conjuncts). -/
theorem c3_pruning_cascade (n a : String) (t : List String) (v : Value)
    (m0 : List (String × Value)) (hn : mapGet m0 n = none) (hne : m0 ≠ []) :
    lgInsert [] (chainPath (n :: t)) v = .ok (none, [(n, nestedSingleton t v)]) ∧
    lgRemove [(n, nestedSingleton t v)] (chainPath (n :: t)) true = .ok (some v, []) ∧
    lgRemove (mapInsert m0 n (nestedSingleton t v)).2 (chainPath (n :: t)) true
      = .ok (some v, m0) ∧
    lgRemove [(a, .map (mapInsert m0 n (nestedSingleton t v)).2)]
        (chainPath (a :: n :: t)) true = .ok (some v, [(a, .map m0)]) ∧
    lgInsert [] (chainPath ["foo", "bar", "baz"]) (.integer 1)
      = .ok (none, [("foo", .map [("bar", .map [("baz", .integer 1)])])]) ∧
    lgRemove [("foo", .map [("bar", .map [("baz", .integer 1)])])]
        (chainPath ["foo", "bar", "baz"]) true = .ok (some (.integer 1), []) ∧
    containsB [] (chainPath ["foo", "bar"]) = false ∧
    containsB [] (chainPath ["foo"]) = false ∧
    lgRemove [("foo", .map [("bar", .map [("baz", .integer 1)])])]
        (chainPath ["foo", "bar", "baz"]) false
      = .ok (some (.integer 1), [("foo", .map [("bar", .map [])])]) ∧
    containsB [("foo", .map [("bar", .map [])])] (chainPath ["foo", "bar"]) = true ∧
    containsB [("foo", .map [("bar", .map [])])] (chainPath ["foo"]) = true := by
  refine ⟨?_, ?_, ?_, ?_, ?_, ?_, ?_, ?_, ?_, ?_, ?_⟩
  · cases t with
    | nil => simp [chainPath, lgInsert, mapInsert, nestedSingleton]
    | cons m t2 =>
      have hc := insert_chain v (m :: t2) (by simp)
      simp only [chainPath, List.map_cons] at hc ⊢
      simp [lgInsert, decideNext, mapGet, mapSet, mapInsert, nestedSingleton, hc]
  · cases t with
    | nil =>
      simp [chainPath, nestedSingleton, lgRemove, mapRemove, mapGet, isNullOpt]
    | cons m t2 =>
      have hc := remove_chain v (m :: t2) (by simp)
      simp only [chainPath, List.map_cons, nestedSingleton] at hc ⊢
      simp [lgRemove, mapGet, mapSet, mapInsert, mapRemove, isNullV, isNullOpt, hc]
  · cases t with
    | nil =>
      have hmr := mapRemove_mapInsert v hn
      simp only [chainPath, List.map_nil, List.map_cons, nestedSingleton]
      simp [lgRemove, hmr, hn, isNullOpt]
    | cons n2 t2 =>
      have hx := mapGet_mapInsert_self m0 n (nestedSingleton (n2 :: t2) v)
      have hrc := remove_chain v (n2 :: t2) (by simp)
      have hmr := mapRemove_mapInsert Value.null hn
      simp only [chainPath, List.map_cons] at hrc ⊢
      simp [lgRemove, hx, hrc, mapSet, mapInsert_mapInsert, hmr, isNullV, isNullOpt,
        mapGet_mapInsert_self]
  · have hstop := remove_chain_stops v n m0 hn hne t
    simp only [chainPath, List.map_cons] at hstop ⊢
    simp [lgRemove, mapGet, hstop, mapSet, mapInsert, isNullV, isNullOpt]
  · simp [chainPath, lgInsert, valueInsert, decideNext, mapGet, mapSet, mapInsert]
  · simp [chainPath, lgRemove, valueRemove, mapGet, mapSet, mapInsert, mapRemove,
      isNullV, isNullOpt, pruneSentinel, isEmptyContainer]
  · simp [chainPath, containsB, isFound, lgGet, mapGet]
  · simp [chainPath, containsB, isFound, lgGet, mapGet]
  · simp [chainPath, lgRemove, valueRemove, mapGet, mapSet, mapInsert, mapRemove,
      isNullV, isNullOpt, pruneSentinel, isEmptyContainer]
  · simp [chainPath, containsB, isFound, lgGet, valueGet, mapGet]
  · simp [chainPath, containsB, isFound, lgGet, valueGet, mapGet]

/-- Witness for C3 at a concrete instance: removing the chain `n.u` with
pruning from a level that also holds `z` deletes only the chain and keeps
`z`, one level below the root. -/
theorem c3_pruning_cascade_witness :
    mapGet [("z", Value.integer 2)] "n" = none ∧
    ([("z", Value.integer 2)] : List (String × Value)) ≠ [] ∧
    lgRemove [("a", .map (mapInsert [("z", Value.integer 2)] "n"
        (nestedSingleton ["u"] (.integer 1))).2)]
        (chainPath ["a", "n", "u"]) true
      = .ok (some (.integer 1), [("a", .map [("z", Value.integer 2)])]) :=
  ⟨rfl, by simp,
   (c3_pruning_cascade "n" "a" ["u"] (.integer 1) [("z", Value.integer 2)]
     rfl (by simp)).2.2.2.1⟩

/-- Witness for C4 at a concrete instance. -/
theorem c4_coalesce_read_first_contained_witness :
    altsOk [[Segment.field "z" false], [Segment.field "a" false]] = true ∧
    (lgGet [("a", Value.integer 1)]
        [.coalesce [[Segment.field "z" false], [Segment.field "a" false]]]
      = match ([[Segment.field "z" false], [Segment.field "a" false]].map
            (fun a => a ++ ([] : Path))).find? (containsB [("a", Value.integer 1)]) with
        | some c => lgGet [("a", Value.integer 1)] c
        | none => .ok none) := by
  refine ⟨by decide, ?_⟩
  exact (c4_coalesce_read_first_contained [("a", Value.integer 1)]
    [[Segment.field "z" false], [Segment.field "a" false]] [] false (by decide)).1

/-- Witness for C1 at a concrete instance. -/
theorem c1_coalesce_insert_first_vacant_witness :
    altsOk [[Segment.field "snoot" false], [Segment.field "boot" false, Segment.field "beep" false]]
        = true ∧
    lgInsert []
        [.coalesce [[Segment.field "snoot" false],
          [Segment.field "boot" false, Segment.field "beep" false]],
          .field "leep" false] (.integer 1)
      = .ok (none, [("snoot", .map [("leep", .integer 1)])]) := by
  refine ⟨by decide, ?_⟩
  exact (c1_coalesce_insert_first_vacant []
    [[Segment.field "snoot" false], [Segment.field "boot" false, Segment.field "beep" false]]
    [Segment.field "leep" false] (.integer 1) (by decide)).2.2.1

/-- Witness for C5 at a concrete instance. -/
theorem c5_insert_vivification_witness :
    mapGet [] "root" = none ∧
    (lgInsert ([] : Fields) [.field "root" false, .index 2] (.boolean true)
      = match decideNext (.index 2) with
        | none => .ok (none, ([] : Fields))
        | some nv =>
          .ok ((valueInsert nv [Segment.index 2] (.boolean true)).1,
               mapSet [] "root" (valueInsert nv [Segment.index 2] (.boolean true)).2)) := by
  refine ⟨rfl, ?_⟩
  exact (c5_insert_vivification [] "root" false (.index 2) [] (.boolean true) rfl).1

/-! ## No-panic lemmas (C6) and the entry walker (C8) -/

lemma findNeedle_ne_nil {test : Path → Bool} {alts : List (List Segment)} {rest c : Path}
    (h : findNeedle test alts rest = some c) : c ≠ [] := by
  obtain ⟨alt, _, hne, hc, _⟩ := findNeedle_some h
  subst hc
  cases alt with
  | nil => simp at hne
  | cons s t => simp

lemma lgGet_isOk (f : Fields) : ∀ p : Path, p ≠ [] → exOk (lgGet f p) = true := by
  have main : ∀ (N : Nat) (p : Path), sizeOf p ≤ N → p ≠ [] → exOk (lgGet f p) = true := by
    intro N
    induction N with
    | zero =>
      intro p hle hne
      cases p with
      | nil => exact absurd rfl hne
      | cons s t => simp at hle
    | succ N ih =>
      intro p hle hne
      match p with
      | .coalesce alts :: rest =>
        rw [lgGet, lgGetCo_eq]
        cases hf : findNeedle (containsB f) alts rest with
        | none => rfl
        | some c =>
          have hsz := findNeedle_sizeOf hf
          have hcne := findNeedle_ne_nil hf
          have hle2 : sizeOf c ≤ N := by
            simp at hle
            omega
          exact ih c hle2 hcne
      | .field n q :: rest =>
        cases rest with
        | nil => rw [lgGet]; rfl
        | cons s t =>
          cases hmg : mapGet f n with
          | some v0 => simp [lgGet, hmg, exOk]
          | none => simp [lgGet, hmg, exOk]
      | .index i :: rest => rw [lgGet]; rfl
  exact fun p => main (sizeOf p) p le_rfl

lemma lgGetMut_isOk (f : Fields) (p : Path) : p ≠ [] → exOk (lgGetMut f p) = true := by
  rw [lgGetMut_eq_lgGet]
  exact lgGet_isOk f p

lemma lgContains_isOk (f : Fields) (p : Path) (h : p ≠ []) : exOk (lgContains f p) = true := by
  have := lgGet_isOk f p h
  rw [lgContains]
  cases hg : lgGet f p with
  | error e => rw [hg] at this; simp [exOk] at this
  | ok o => simp [Except.map, exOk]

lemma lgInsert_isOk (f : Fields) (p : Path) (v : Value) :
    p ≠ [] → exOk (lgInsert f p v) = true := by
  induction p, v using lgInsert.induct with
  | f => exact f
  | case1 v => intro h; exact absurd rfl h
  | case2 v alts rest c hf ih =>
    intro _
    rw [lgInsert_coalesce, hf]
    exact ih (findNeedle_ne_nil hf)
  | case3 v alts rest hf =>
    intro _
    rw [lgInsert_coalesce, hf]
    rfl
  | case4 v n q => intro _; simp [lgInsert, exOk]
  | case5 v n q next rest2 hd => intro _; simp [lgInsert, hd, exOk]
  | case6 v n q next rest2 nv hd => intro _; simp [lgInsert, hd, exOk]
  | case7 v i tail => intro _; simp [lgInsert, exOk]

lemma lgRemove_isOk (f : Fields) (p : Path) (prune : Bool) :
    p ≠ [] → exOk (lgRemove f p prune) = true := by
  induction p, prune using lgRemove.induct with
  | f => exact f
  | case1 prune => intro h; exact absurd rfl h
  | case2 prune alts rest c hf ih =>
    intro _
    rw [lgRemove_coalesce, hf]
    exact ih (findNeedle_ne_nil hf)
  | case3 prune alts rest hf =>
    intro _
    rw [lgRemove_coalesce, hf]
    rfl
  | case4 prune n q => intro _; simp [lgRemove, exOk]
  | case5 prune n q next rest2 c hsome => intro _; simp [lgRemove, hsome, exOk]
  | case6 prune n q next rest2 hnone => intro _; simp [lgRemove, hnone, exOk]
  | case7 prune i tail => intro _; simp [lgRemove, exOk]

lemma entryLoop_not_panicked :
    ∀ (rest : Path) (key : String) (cur : Option Value) (msg : String),
      entryLoop key cur rest ≠ .panicked msg := by
  intro rest
  induction rest with
  | nil => intro key cur msg h; simp [entryLoop] at h
  | cons s t ih =>
    intro key cur msg h
    cases s with
    | field m q =>
      cases cur with
      | some v =>
        cases v
        case map inner => exact ih m (mapGet inner m) msg (by simpa [entryLoop] using h)
        all_goals simp [entryLoop] at h
      | none => simp [entryLoop] at h
    | index i => simp [entryLoop] at h
    | coalesce alts => simp [entryLoop] at h

lemma lgIndex_isOk_iff (f : Fields) (p : Path) (h : p ≠ []) :
    exOk (lgIndex f p) = containsB f p := by
  have hok := lgGet_isOk f p h
  cases hg : lgGet f p with
  | error e => rw [hg] at hok; simp [exOk] at hok
  | ok o =>
    cases o with
    | some v => simp [lgIndex, hg, exOk, containsB, isFound]
    | none => simp [lgIndex, hg, exOk, containsB, isFound]

lemma lgIndexMut_isOk_iff (f : Fields) (p : Path) (h : p ≠ []) :
    exOk (lgIndexMut f p) = containsB f p := by
  have hok := lgGet_isOk f p h
  cases hg : lgGet f p with
  | error e => rw [hg] at hok; simp [exOk] at hok
  | ok o =>
    cases o with
    | some v => simp [lgIndexMut, lgGetMut_eq_lgGet, hg, exOk, containsB, isFound]
    | none => simp [lgIndexMut, lgGetMut_eq_lgGet, hg, exOk, containsB, isFound]

/-- C6 counterexample: on well-formed, parser-valid input the claim fails —
the indexing operator panics (`expect("Key not found.")`) on an absent
key, and `entry` reaches its `unreachable!` branch on a parser-valid path
whose first segment is a coalesce group. -/
theorem c6_counterexample_panics :
    lgIndex [] [.field "foo" false] = .error "panic: Key not found." ∧
    lgEntry [] [.coalesce [[.field "snoot" false], [.field "boot" false]]]
      = .panicked "unreachable: a Lookup without a leading Field segment" := by
  constructor
  · simp [lgIndex, lgGet, mapGet]
  · rfl

/-- C6 (amended): on every non-empty path, `get`, `get_mut`, `contains`,
`insert` and `remove` complete without reaching a panic branch; `entry`
completes without reaching its `unreachable!` branch whenever the first
segment is a plain field; and the indexing operators complete exactly when
the lookup is present (they panic on an absent key). -/
theorem c6_no_panic_amended (f : Fields) (p : Path) (v : Value) (prune : Bool)
    (h : p ≠ []) :
    exOk (lgGet f p) = true ∧
    exOk (lgGetMut f p) = true ∧
    exOk (lgContains f p) = true ∧
    exOk (lgInsert f p v) = true ∧
    exOk (lgRemove f p prune) = true ∧
    (∀ n q rest msg, lgEntry f (.field n q :: rest) ≠ .panicked msg) ∧
    exOk (lgIndex f p) = containsB f p ∧
    exOk (lgIndexMut f p) = containsB f p :=
  ⟨lgGet_isOk f p h, lgGetMut_isOk f p h, lgContains_isOk f p h,
   lgInsert_isOk f p v h, lgRemove_isOk f p prune h,
   fun n q rest msg => by
     rw [lgEntry]
     exact entryLoop_not_panicked rest n (mapGet f n) msg,
   lgIndex_isOk_iff f p h, lgIndexMut_isOk_iff f p h⟩

/-- Witness for C6 (amended) at a concrete instance. -/
theorem c6_no_panic_amended_witness :
    ([Segment.field "foo" false] : Path) ≠ [] ∧
    exOk (lgGet [] [Segment.field "foo" false]) = true :=
  ⟨by simp, (c6_no_panic_amended [] [Segment.field "foo" false] (.integer 0) false
    (by simp)).1⟩

lemma entryLoop_spec :
    ∀ (rest : Path) (key : String) (cur : Option Value),
      (walkErr cur rest = true → ∃ msg, entryLoop key cur rest = .failure msg) ∧
      (walkErr cur rest = false → ∃ k c2, entryLoop key cur rest = .cursor k c2) := by
  intro rest
  induction rest with
  | nil =>
    intro key cur
    exact ⟨fun h => by simp [walkErr] at h, fun _ => ⟨key, cur, rfl⟩⟩
  | cons s t ih =>
    intro key cur
    cases s with
    | field m q =>
      cases cur with
      | some v =>
        cases v
        case map inner =>
          refine ⟨fun h => ?_, fun h => ?_⟩
          · rw [walkErr] at h
            obtain ⟨msg, hm⟩ := (ih m (mapGet inner m)).1 h
            exact ⟨msg, by simpa [entryLoop] using hm⟩
          · rw [walkErr] at h
            obtain ⟨k, c2, hm⟩ := (ih m (mapGet inner m)).2 h
            exact ⟨k, c2, by simpa [entryLoop] using hm⟩
        all_goals exact ⟨fun _ => ⟨_, rfl⟩, fun h => by simp [walkErr] at h⟩
      | none => exact ⟨fun _ => ⟨_, rfl⟩, fun h => by simp [walkErr] at h⟩
    | index i => exact ⟨fun _ => ⟨_, rfl⟩, fun h => by simp [walkErr] at h⟩
    | coalesce alts => exact ⟨fun _ => ⟨_, rfl⟩, fun h => by simp [walkErr] at h⟩

/-- C8 counterexample: `entry` does not return a descriptive error for
every path — a path whose first segment is an `Index` (or a `Coalesce`)
reaches the `unreachable!` panic branch instead. -/
theorem c8_counterexample_entry_panics :
    lgEntry [] [.index 0]
      = .panicked "unreachable: a Lookup without a leading Field segment" := rfl

/-- C8 (amended): for every path whose first segment is a plain `Field`,
`entry` never panics and never mutates the tree, returning a cursor at the
final field or a descriptive error in exactly the claimed cases —
descending into a non-map value, stepping into a missing field before the
terminus, or a non-field segment after the first (`walkErr`); a path that
is empty or starts with a non-field segment reaches the `unreachable!`
branch instead. -/
theorem c8_entry_errors_exactly (f : Fields) (n : String) (q : Bool) (rest : Path) :
    (∀ msg, lgEntry f (.field n q :: rest) ≠ .panicked msg) ∧
    ((∃ msg, lgEntry f (.field n q :: rest) = .failure msg)
      ↔ walkErr (mapGet f n) rest = true) ∧
    (walkErr (mapGet f n) rest = false →
      ∃ key cur, lgEntry f (.field n q :: rest) = .cursor key cur) ∧
    lgEntry f [] = .panicked "unreachable: a Lookup without a leading Field segment" ∧
    (∀ i rest2, lgEntry f (.index i :: rest2)
      = .panicked "unreachable: a Lookup without a leading Field segment") ∧
    (∀ alts rest2, lgEntry f (.coalesce alts :: rest2)
      = .panicked "unreachable: a Lookup without a leading Field segment") := by
  have hs := entryLoop_spec rest n (mapGet f n)
  refine ⟨?_, ⟨?_, ?_⟩, ?_, rfl, fun i rest2 => rfl, fun alts rest2 => rfl⟩
  · intro msg
    rw [lgEntry]
    exact entryLoop_not_panicked rest n (mapGet f n) msg
  · rintro ⟨msg, hmsg⟩
    by_contra hw
    rw [Bool.not_eq_true] at hw
    obtain ⟨k, c2, hk⟩ := hs.2 hw
    rw [lgEntry] at hmsg
    rw [hk] at hmsg
    exact EntryOutcome.noConfusion hmsg
  · intro h
    obtain ⟨msg, hm⟩ := hs.1 h
    exact ⟨msg, by rw [lgEntry]; exact hm⟩
  · intro h
    obtain ⟨k, c2, hk⟩ := hs.2 h
    exact ⟨k, c2, by rw [lgEntry]; exact hk⟩

/-- Witness for C8 (amended) at a concrete instance. -/
theorem c8_entry_errors_exactly_witness :
    walkErr (mapGet [("a", Value.map [])] "a") [] = false ∧
    ∃ key cur, lgEntry [("a", Value.map [])] [.field "a" false] = .cursor key cur :=
  ⟨rfl, (c8_entry_errors_exactly [("a", .map [])] "a" false []).2.2.1 rfl⟩

/-! ## Round-trip (C2) -/

/-- C2 counterexample: inserting `a.b` when `a` holds the scalar `5`
cannot auto-vivify through the scalar — the insert is a silent no-op and
the subsequent `get` yields nothing instead of the inserted value. -/
theorem c2_counterexample_roundtrip :
    lgInsert [("a", Value.integer 5)] [.field "a" false, .field "b" false] (.boolean true)
      = .ok (none, [("a", Value.integer 5)]) ∧
    lgGet [("a", Value.integer 5)] [.field "a" false, .field "b" false] = .ok none := by
  constructor
  · simp [lgInsert, valueInsert, decideNext, mapGet, mapSet, mapInsert]
  · simp [lgGet, valueGet, mapGet]

lemma roundtrip_value :
    ∀ (p : Path) (v V : Value),
      fieldsPath p = true → compatV v p = true → treeOk v = true →
      valueGet (valueInsert v p V).2 p = some V ∧
      ∀ prune, valueGet (valueRemove (valueInsert v p V).2 p prune).2 p = none := by
  intro p
  induction p with
  | nil =>
    intro v V hp _ _
    simp [fieldsPath] at hp
  | cons s rest ih =>
    intro v V hp hc hok
    cases s with
    | index i => simp [fieldsPath, isFieldSeg] at hp
    | coalesce alts => simp [fieldsPath, isFieldSeg] at hp
    | field n q =>
      cases rest with
      | nil =>
        cases v
        case map m =>
          rw [treeOk] at hok
          simp only [Bool.and_eq_true] at hok
          obtain ⟨hs, _⟩ := hok
          have hs1 : keysSorted (mapInsert m n V).2 = true := keysSorted_mapInsert hs
          have hrm : mapGet (mapRemove (mapInsert m n V).2 n).2 n = none :=
            mapGet_mapRemove_self hs1
          constructor
          · simp [valueInsert, valueGet, mapGet_mapInsert_self]
          · intro prune
            simp only [valueInsert, valueRemove, hrm, isNullOpt, Bool.and_false,
              Bool.false_eq_true, if_false]
            rw [pruneSentinel]
            split
            · simp [valueGet]
            · simp [valueGet, hrm]
        all_goals simp [compatV] at hc
      | cons next rest2 =>
        cases next with
        | index i => simp [fieldsPath, isFieldSeg] at hp
        | coalesce alts => simp [fieldsPath, isFieldSeg] at hp
        | field n2 q2 =>
          cases v
          case map m =>
            rw [treeOk] at hok
            simp only [Bool.and_eq_true] at hok
            obtain ⟨hs, hmo⟩ := hok
            rw [compatV] at hc
            have hp2 : fieldsPath (Segment.field n2 q2 :: rest2) = true := by
              simp [fieldsPath, isFieldSeg] at hp ⊢
              exact hp
            have hchild : treeOk ((mapGet m n).getD (.map [])) = true := by
              cases hmg : mapGet m n with
              | some c => simpa using mapGet_treeOk hmo hmg
              | none => simp [treeOk, keysSorted, mapOk]
            obtain ⟨hg, hr⟩ := ih ((mapGet m n).getD (.map [])) V hp2 hc hchild
            constructor
            · simp only [valueInsert, decideNext]
              simp [valueGet, mapGet_mapSet_self, hg]
            · intro prune
              have hr2 := hr prune
              simp only [valueInsert, decideNext]
              set cur2 := (valueInsert ((mapGet m n).getD (.map []))
                (Segment.field n2 q2 :: rest2) V).2 with hcur2
              simp only [valueRemove, mapSet, mapGet_mapInsert_self]
              set cur3 := (valueRemove cur2 (Segment.field n2 q2 :: rest2) prune).2 with hcur3
              rw [pruneSentinel]
              have hs2 : keysSorted (mapInsert (mapInsert m n cur2).2 n cur3).2 = true :=
                keysSorted_mapInsert (keysSorted_mapInsert hs)
              split
              · split
                · simp [valueGet]
                · simp [valueGet, mapGet_mapRemove_self hs2]
              · split
                · simp [valueGet]
                · simp [valueGet, mapGet_mapInsert_self, hr2]
          all_goals simp [compatV] at hc

/-- C2 (amended): for every non-empty path made only of plain `Field`
segments whose descent meets only existing maps (or absent slots) before
the terminus, on a well-formed tree, `insert(P, V)` followed by `get(P)`
yields `V` and `contains(P)` is true, and after a subsequent
`remove(P, _)` (either prune flag) `get(P)` yields nothing. -/
theorem c2_roundtrip_amended (f : Fields) (p : Path) (V : Value) (r : Option Value)
    (f1 : Fields) (hp : fieldsPath p = true) (hc : compatRoot f p = true)
    (hok : fieldsOk f = true) (hins : lgInsert f p V = .ok (r, f1)) :
    lgGet f1 p = .ok (some V) ∧ containsB f1 p = true ∧
    ∀ prune r2 f2, lgRemove f1 p prune = .ok (r2, f2) → lgGet f2 p = .ok none := by
  rw [fieldsOk] at hok
  simp only [Bool.and_eq_true] at hok
  obtain ⟨hs, hmo⟩ := hok
  match p, hp with
  | .field n q :: rest, hp =>
    cases rest with
    | nil =>
      rw [lgInsert, Except.ok.injEq] at hins
      have hf1 : f1 = (mapInsert f n V).2 := by rw [hins]
      subst hf1
      have hs1 : keysSorted (mapInsert f n V).2 = true := keysSorted_mapInsert hs
      have hget : lgGet (mapInsert f n V).2 [Segment.field n q] = .ok (some V) := by
        rw [lgGet, mapGet_mapInsert_self]
      refine ⟨hget, by simp [containsB, isFound, hget], ?_⟩
      intro prune r2 f2 hrem
      rw [lgRemove] at hrem
      simp [mapGet_mapRemove_self hs1, isNullOpt] at hrem
      have hf2 : f2 = (mapRemove (mapInsert f n V).2 n).2 := by
        have h2 := congrArg Prod.snd hrem
        simpa using h2.symm
      rw [hf2, lgGet, mapGet_mapRemove_self hs1]
    | cons next rest2 =>
      cases next with
      | index i => simp [fieldsPath, isFieldSeg] at hp
      | coalesce alts => simp [fieldsPath, isFieldSeg] at hp
      | field n2 q2 =>
        rw [compatRoot] at hc
        have hp2 : fieldsPath (Segment.field n2 q2 :: rest2) = true := by
          simp [fieldsPath, isFieldSeg] at hp ⊢
          exact hp
        have hchild : treeOk ((mapGet f n).getD (.map [])) = true := by
          cases hmg : mapGet f n with
          | some c => simpa using mapGet_treeOk hmo hmg
          | none => simp [treeOk, keysSorted, mapOk]
        obtain ⟨hg, hr⟩ := roundtrip_value (.field n2 q2 :: rest2)
          ((mapGet f n).getD (.map [])) V hp2 hc hchild
        rw [lgInsert] at hins
        simp only [decideNext] at hins
        rw [Except.ok.injEq] at hins
        set cur2 := (valueInsert ((mapGet f n).getD (.map []))
          (Segment.field n2 q2 :: rest2) V).2 with hcur2
        have hf1 : f1 = mapSet f n cur2 := (congrArg Prod.snd hins).symm
        subst hf1
        have hget : lgGet (mapSet f n cur2)
            (.field n q :: .field n2 q2 :: rest2) = .ok (some V) := by
          simp only [lgGet, mapGet_mapSet_self]
          rw [hg]
        refine ⟨hget, by simp [containsB, isFound, hget], ?_⟩
        intro prune r2 f2 hrem
        have hr2 := hr prune
        rw [lgRemove] at hrem
        simp only [mapSet, mapGet_mapInsert_self] at hrem
        set cur3 := (valueRemove cur2 (Segment.field n2 q2 :: rest2) prune).2 with hcur3
        rw [Except.ok.injEq, Prod.mk.injEq] at hrem
        obtain ⟨_, hf2⟩ := hrem
        rw [← hf2]
        split
        · have hs2 : keysSorted (mapInsert (mapInsert f n cur2).2 n cur3).2 = true :=
            keysSorted_mapInsert (keysSorted_mapInsert hs)
          simp only [lgGet, mapGet_mapRemove_self hs2]
        · simp only [lgGet, mapGet_mapInsert_self]
          rw [hr2]

/-- Witness for C2 (amended) at a concrete instance. -/
theorem c2_roundtrip_amended_witness :
    fieldsPath [Segment.field "a" false] = true ∧
    compatRoot [] [Segment.field "a" false] = true ∧
    fieldsOk [] = true ∧
    lgInsert [] [Segment.field "a" false] (.integer 7)
      = .ok (none, [("a", Value.integer 7)]) ∧
    lgGet [("a", Value.integer 7)] [Segment.field "a" false] = .ok (some (.integer 7)) := by
  refine ⟨by decide, by decide, by decide, by simp [lgInsert, mapInsert], ?_⟩
  exact (c2_roundtrip_amended [] [Segment.field "a" false] (.integer 7) none
    [("a", Value.integer 7)] (by decide) (by decide) (by decide)
    (by simp [lgInsert, mapInsert])).1

end LogEventModel
